import Mathlib

/-!
Shallow embedding of the HMM engine of
`src/hmm_based_isolated_word_recognizer.py` (class `MyHMM`, lines 69-144)
and verification of its natural-language specification.

Modelling conventions:
* Machine floats are modelled by `F := Option ℚ`; `none` models the IEEE
  NaN value (the only non-finite value the embedded code can produce: the
  `0/0` division in `viterbi_transition_update`).  All finite float values
  are modelled exactly by rationals.
* `np.log` and `scipy.special.logsumexp` are strictly increasing real
  functions whose analytic properties none of the verified claims depend
  on; they are taken as parameters (`log : ℚ → ℚ`,
  `lse : List ℚ → ℚ`, lifted to `F` by `liftLse` which propagates NaN
  exactly as `scipy` does).
* Python exceptions become `Except Err`; the source raises numpy
  `IndexError`/`ValueError` at three distinct program points which the
  spec names `ShapeMismatch` (label out of range during emission
  restriction), `EmptySequence` (the `alpha[0]`/`delta[0]` assignment with
  zero frames) and a final-indexing error for zero states
  (`Err.indexError`).
-/

namespace HMMV

/-- Machine floats: `none` models IEEE NaN, `some q` a finite value. -/
abbrev F := Option ℚ

/-- Float addition: NaN propagates. -/
def fadd : F → F → F
  | some a, some b => some (a + b)
  | _, _ => none

/-- Binary float maximum as used by `np.max` reduction: NaN propagates. -/
def fmax2 : F → F → F
  | some a, some b => some (max a b)
  | _, _ => none

/-- `np.max` of a vector (reduction by `fmax2`); `none` on the empty
vector, which the embedded code never evaluates (numpy raises there). -/
def fmaxList : List F → F
  | [] => none
  | x :: xs => xs.foldl fmax2 x

/-- Loop of `np.argmax` over the remaining elements: current maximum `m`
(a finite value), next absolute index `i`, best index so far `best`.
A NaN element immediately becomes the running maximum and numpy then
stops, returning its index. -/
def fargmaxGo : List F → ℚ → ℕ → ℕ → ℕ
  | [], _, _, best => best
  | none :: _, _, i, _ => i
  | some x :: xs, m, i, best =>
    if m < x then fargmaxGo xs x (i + 1) i else fargmaxGo xs m (i + 1) best

/-- `np.argmax`: index of the first element strictly greater than every
earlier element (first-occurrence maximum); index of the first NaN if one
is present; `0` on the empty vector (numpy raises there; the embedded
code only evaluates it on nonempty vectors). -/
def fargmax : List F → ℕ
  | [] => 0
  | none :: _ => 0
  | some x :: xs => fargmaxGo xs x 1 0

/-- Rational counterpart of `fargmaxGo` (no NaN present). -/
def argmaxGoQ : List ℚ → ℚ → ℕ → ℕ → ℕ
  | [], _, _, best => best
  | x :: xs, m, i, best =>
    if m < x then argmaxGoQ xs x (i + 1) i else argmaxGoQ xs m (i + 1) best

/-- Maximum of a rational vector (`0` on the empty vector, never used). -/
def maxQ : List ℚ → ℚ
  | [] => 0
  | x :: xs => xs.foldl max x

/-- Smallest index attaining the maximum of a vector: since every element
is `≤ maxQ l`, the first element `y` with `maxQ l ≤ y` is the first
element equal to the maximum (the spec's first-occurrence tie-break). -/
def argmaxSpec (l : List ℚ) : ℕ := l.findIdx (fun y => decide (maxQ l ≤ y))

/-- Lift of `scipy.special.logsumexp` to floats: NaN anywhere in the input
yields NaN, otherwise the underlying real function is applied. -/
def liftLse (lse : List ℚ → ℚ) (l : List F) : F :=
  (l.mapM id).map lse

/-- The failure conditions of the engine (§7 of the spec).  The source
surfaces all of them as numpy indexing errors; the three constructors
record the three distinct raising program points. -/
inductive Err
  | shapeMismatch
  | emptySequence
  | indexError
deriving DecidableEq

instance {ε α : Type _} [DecidableEq ε] [DecidableEq α] :
    DecidableEq (Except ε α) := fun x y =>
  match x, y with
  | .ok a, .ok b =>
      decidable_of_iff (a = b) ⟨fun h => h ▸ rfl, fun h => Except.ok.inj h⟩
  | .error e, .error f =>
      decidable_of_iff (e = f) ⟨fun h => h ▸ rfl, fun h => Except.error.inj h⟩
  | .ok _, .error _ => isFalse (fun h => Except.noConfusion h)
  | .error _, .ok _ => isFalse (fun h => Except.noConfusion h)

/-- The model state of class `MyHMM` (source lines 70-76):
`eps` the smoothing floor, `pi` the log initial distribution, `A` the log
transition matrix (`A[j][i]` = log-probability of moving from state `j` to
state `i`), `labels` the phone-inventory index of each state, `N_states`
the state count (always `labels.length` for constructed models). -/
structure MyHMM where
  eps : ℚ
  pi : List F
  A : List (List F)
  labels : List ℕ
  N_states : ℕ
deriving DecidableEq

/-- `MyHMM.__init__` (source lines 70-76): stores
`log (x + eps)` elementwise over the initial distribution and the
transition matrix and sets `N_states := labels.length`.  The body is
straight-line numpy code that raises no exception, hence always `.ok`. -/
def MyHMM.init (log : ℚ → ℚ) (labels : List ℕ) (pi0 : List ℚ)
    (A0 : List (List ℚ)) (eps : ℚ) : Except Err MyHMM :=
  .ok { eps := eps
        pi := pi0.map (fun x => some (log (x + eps)))
        A := A0.map (fun r => r.map (fun x => some (log (x + eps))))
        labels := labels
        N_states := labels.length }

/-- One row of the emission restriction
(`state_likelihoods[t][self.labels]`, source lines 82-83 and 104-105):
numpy fancy indexing, raising when a label is out of range. -/
def gatherRow (labels : List ℕ) (row : List F) : Except Err (List F) :=
  match labels with
  | [] => .ok []
  | l :: ls =>
    if h : l < row.length then
      match gatherRow ls row with
      | .ok rest => .ok (row.get ⟨l, h⟩ :: rest)
      | .error e => .error e
    else .error Err.shapeMismatch

/-- The emission-restriction step (source lines 81-84 and 103-106):
select, for every timestep, the columns indexed by `labels`, producing a
fresh T×N working matrix; the first out-of-range row raises. -/
def restrictEmissions (labels : List ℕ) (em : List (List F)) :
    Except Err (List (List F)) :=
  match em with
  | [] => .ok []
  | r :: rs =>
    match gatherRow labels r with
    | .error e => .error e
    | .ok g =>
      match restrictEmissions labels rs with
      | .error e => .error e
      | .ok rest => .ok (g :: rest)

/-- Column `i` of the transition matrix, `self.A[:,i]`. -/
def colA (A : List (List F)) (i : ℕ) : List F :=
  A.map (fun r => r.getD i none)

/-- One induction step of the forward loop (source lines 91-93):
`alpha[t][i] = logsumexp(alpha[t-1] + A[:,i]) + sl[t][i]`. -/
def nextAlphaRow (lseF : List F → F) (A : List (List F)) (N : ℕ)
    (prev slRow : List F) : List F :=
  (List.range N).map (fun i =>
    fadd (lseF (List.zipWith fadd prev (colA A i))) (slRow.getD i none))

/-- `MyHMM.forward` (source lines 78-97): emission restriction, the
log-domain forward recursion, and return of `alpha[-1][-1]`. -/
def MyHMM.forward (M : MyHMM) (lseF : List F → F) (em : List (List F)) :
    Except Err F :=
  match restrictEmissions M.labels em with
  | .error e => .error e
  | .ok [] => .error Err.emptySequence
  | .ok (r0 :: rest) =>
    match (rest.foldl (fun prev r => nextAlphaRow lseF M.A M.N_states prev r)
        (List.zipWith fadd M.pi r0)).getLast? with
    | some v => .ok v
    | none => .error Err.indexError

/-- One induction step of the Viterbi score loop (source line 117):
`delta[t][i] = np.max(delta[t-1] + A[:,i]) + sl[t][i]`. -/
def nextDeltaRow (A : List (List F)) (N : ℕ) (prev slRow : List F) : List F :=
  (List.range N).map (fun i =>
    fadd (fmaxList (List.zipWith fadd prev (colA A i))) (slRow.getD i none))

/-- One induction step of the backpointer loop (source line 118):
`psi[t][i] = np.argmax(delta[t-1] + A[:,i])`. -/
def nextPsiRow (A : List (List F)) (N : ℕ) (prev : List F) : List ℕ :=
  (List.range N).map (fun i => fargmax (List.zipWith fadd prev (colA A i)))

/-- The backtracking loop (source lines 125-126), consuming the psi rows
for times `T-1, T-2, ..., 1` (the reversed tail of the psi trellis) and
the final state: `q[t] = psi[t+1][q[t+1]]`. -/
def btkRev : List (List ℕ) → ℕ → List ℕ
  | [], q => [q]
  | r :: rest, q => btkRev rest (r.getD q 0) ++ [q]

/-- The backtracking chain in functional form: `pfAux psi m q k` is the
state decoded `k` steps before the final frame of a `(m+1)`-frame path
whose final state is `q`, reading backpointers from the rows
`psi (m), psi (m-1), ...`. -/
def pfAux (psi : ℕ → List ℕ) (m q : ℕ) : ℕ → ℕ
  | 0 => q
  | k + 1 => (psi (m - k)).getD (pfAux psi m q k) 0

/-- `MyHMM.viterbi` (source lines 99-128): restriction, the max-sum
recursion accumulating the backpointer rows `psi[1..T-1]`, termination by
`argmax(delta[-1])` and backtracking. -/
def MyHMM.viterbi (M : MyHMM) (em : List (List F)) :
    Except Err (List ℕ) :=
  match restrictEmissions M.labels em with
  | .error e => .error e
  | .ok [] => .error Err.emptySequence
  | .ok (r0 :: rest) =>
    match rest.foldl
        (fun (acc : List F × List (List ℕ)) r =>
          (nextDeltaRow M.A M.N_states acc.1 r,
           acc.2 ++ [nextPsiRow M.A M.N_states acc.1]))
        (List.zipWith fadd M.pi r0, []) with
    | (lastDelta, psiRows) =>
      if lastDelta.isEmpty then .error Err.indexError
      else .ok (btkRev psiRows.reverse (fargmax lastDelta))

/-- Out-degree of state `j` along a decoded path (source lines 138-140):
the number of timesteps `t ≤ T-2` with `path[t] = j`, i.e. the number of
consecutive pairs whose first component is `j`. -/
def outCount (path : List ℕ) (j : ℕ) : ℕ :=
  (path.zip path.tail).countP (fun p => decide (p.1 = j))

/-- Transition count from `j` to `i` along a decoded path (source lines
138-139): the number of consecutive pairs equal to `(j, i)`. -/
def transCount (path : List ℕ) (j i : ℕ) : ℕ :=
  (path.zip path.tail).countP (fun p => decide (p = (j, i)))

/-- The pre-log updated transition matrix
`transitions_ij / out_transitions[:, None] + eps` (source line 142).
When `outCount path j = 0` every count in row `j` is also `0`
(`outCount_eq_zero_transCount`), so the numpy entry is `0/0 = NaN`, and
`NaN + eps = NaN`: the whole row is NaN, modelled by `none`. -/
def newAPre (eps : ℚ) (N : ℕ) (path : List ℕ) : List (List F) :=
  (List.range N).map (fun j => (List.range N).map (fun i =>
    if outCount path j = 0 then none
    else some ((transCount path j i : ℚ) / (outCount path j : ℚ) + eps)))

/-- `MyHMM.viterbi_transition_update` (source lines 130-144): decode the
best path, accumulate transition and out-degree counts, and replace
`self.A` by `np.log` of the row-normalised counts plus `eps`. -/
def MyHMM.viterbi_transition_update (M : MyHMM) (log : ℚ → ℚ)
    (em : List (List F)) : Except Err MyHMM :=
  match M.viterbi em with
  | .error e => .error e
  | .ok q =>
    .ok { M with A := (newAPre M.eps M.N_states q).map (fun r => r.map (Option.map log)) }

/-- `MyHMM.forward` as a state transformer over the object: the method
body (source lines 78-97) assigns no `self` field, so the threaded object
is returned unchanged at the single successful exit. -/
def MyHMM.forward_call (M : MyHMM) (lseF : List F → F)
    (em : List (List F)) : Except Err (F × MyHMM) :=
  match restrictEmissions M.labels em with
  | .error e => .error e
  | .ok [] => .error Err.emptySequence
  | .ok (r0 :: rest) =>
    match (rest.foldl (fun prev r => nextAlphaRow lseF M.A M.N_states prev r)
        (List.zipWith fadd M.pi r0)).getLast? with
    | some v => .ok (v, M)
    | none => .error Err.indexError

/-- `MyHMM.viterbi` as a state transformer over the object: the method
body (source lines 99-128) assigns no `self` field, so the threaded
object is returned unchanged at the single successful exit. -/
def MyHMM.viterbi_call (M : MyHMM) (em : List (List F)) :
    Except Err (List ℕ × MyHMM) :=
  match restrictEmissions M.labels em with
  | .error e => .error e
  | .ok [] => .error Err.emptySequence
  | .ok (r0 :: rest) =>
    match rest.foldl
        (fun (acc : List F × List (List ℕ)) r =>
          (nextDeltaRow M.A M.N_states acc.1 r,
           acc.2 ++ [nextPsiRow M.A M.N_states acc.1]))
        (List.zipWith fadd M.pi r0, []) with
    | (lastDelta, psiRows) =>
      if lastDelta.isEmpty then .error Err.indexError
      else .ok (btkRev psiRows.reverse (fargmax lastDelta), M)

/-! ### Claim-side definitions (written from the spec's wording) -/

/-- The spec's state-emission matrix: `stateEmission[t][j] = emission[t][stateLabels[j]]`. -/
def seQ (em : List (List ℚ)) (labels : List ℕ) (t j : ℕ) : ℚ :=
  (em.getD t []).getD (labels.getD j 0) 0

/-- Claim C1's forward recursion: `alpha[0][i] = initialLogProb[i] + stateEmission[0][i]`,
`alpha[t][i] = logsumexp_j (alpha[t-1][j] + transitionLogProb[j][i]) + stateEmission[t][i]`. -/
def alphaSpec (lse : List ℚ → ℚ) (piQ : List ℚ) (AQ : List (List ℚ)) (N : ℕ)
    (se : ℕ → ℕ → ℚ) : ℕ → ℕ → ℚ
  | 0, i => piQ.getD i 0 + se 0 i
  | t + 1, i =>
    lse ((List.range N).map (fun j =>
      alphaSpec lse piQ AQ N se t j + (AQ.getD j []).getD i 0)) + se (t + 1) i

/-- Claim C2's score recursion: `delta[t][i] = max_j (delta[t-1][j] + transitionLogProb[j][i])
+ stateEmission[t][i]`. -/
def deltaSpec (piQ : List ℚ) (AQ : List (List ℚ)) (N : ℕ)
    (se : ℕ → ℕ → ℚ) : ℕ → ℕ → ℚ
  | 0, i => piQ.getD i 0 + se 0 i
  | t + 1, i =>
    maxQ ((List.range N).map (fun j =>
      deltaSpec piQ AQ N se t j + (AQ.getD j []).getD i 0)) + se (t + 1) i

/-- Claim C2's backpointers: `psi[t][i] = argmax_j (delta[t-1][j] + transitionLogProb[j][i])`
with the smallest maximizing index (only used for `t ≥ 1`). -/
def psiSpec (piQ : List ℚ) (AQ : List (List ℚ)) (N : ℕ)
    (se : ℕ → ℕ → ℚ) (t i : ℕ) : ℕ :=
  argmaxSpec ((List.range N).map (fun j =>
    deltaSpec piQ AQ N se (t - 1) j + (AQ.getD j []).getD i 0))

/-- Claim C2's decoded states counted from the end of the utterance:
`qSpecFrom k` is `path[T-1-k]`, so `qSpecFrom 0 = argmax_i (delta[T-1][i])`
(termination) and `path[t] = psi[t+1][path[t+1]]` (backtracking). -/
def qSpecFrom (piQ : List ℚ) (AQ : List (List ℚ)) (N : ℕ)
    (se : ℕ → ℕ → ℚ) (T : ℕ) : ℕ → ℕ
  | 0 => argmaxSpec ((List.range N).map (fun i => deltaSpec piQ AQ N se (T - 1) i))
  | k + 1 => psiSpec piQ AQ N se (T - 1 - k) (qSpecFrom piQ AQ N se T k)

/-- Claim C2's best path: the length-T sequence `path[t]`. -/
def pathSpec (piQ : List ℚ) (AQ : List (List ℚ)) (N : ℕ)
    (se : ℕ → ℕ → ℚ) (T : ℕ) : List ℕ :=
  (List.range T).map (fun t => qSpecFrom piQ AQ N se T (T - 1 - t))

/-- Claim C3 read literally: pre-log entry `(counts[j][i] + eps) / outDegree[j]`,
the epsilon added to the numerator of the ratio (the source instead adds it
to the quotient). -/
def claimNewAPre (eps : ℚ) (N : ℕ) (path : List ℕ) : List (List F) :=
  (List.range N).map (fun j => (List.range N).map (fun i =>
    if outCount path j = 0 then none
    else some (((transCount path j i : ℚ) + eps) / (outCount path j : ℚ))))

/-! ### Concrete instances used by witnesses and counterexamples -/

/-- A concrete logsumexp stand-in used by witnesses (the verified theorems
hold for every `lse`). -/
def lseSum : List ℚ → ℚ := fun l => l.foldl (· + ·) 0

/-- One-state model, `eps = 1`, used by witnesses. -/
def exM1 : MyHMM :=
  { eps := 1, pi := [some 0], A := [[some 0]], labels := [0], N_states := 1 }

/-- Two-frame emission sequence for `exM1`. -/
def exEm2 : List (List F) := [[some 0], [some 0]]

/-- Two-state model, `eps = 1`, used by counterexamples. -/
def exM2 : MyHMM :=
  { eps := 1, pi := [some 0, some (-100)]
    A := [[some 0, some 0], [some 0, some 0]]
    labels := [0, 1], N_states := 2 }

/-- Three-frame emission sequence whose decoded path under `exM2` is
`[0, 0, 1]` (state 0 leaves twice, state 1 never leaves). -/
def exEm3 : List (List F) :=
  [[some 0, some (-100)], [some 0, some (-100)], [some (-100), some 0]]

/-- Results of the first transition update on `exM1`/`exEm2`
(path `[0,0]`, one observed self-transition, `1/1 + eps = 2` pre-log). -/
def exM1upd : MyHMM :=
  { eps := 1, pi := [some 0], A := [[some 2]], labels := [0], N_states := 1 }

/-- Result of updating `exM1` on a single-frame utterance: the decoded
path `[0]` has no transition pairs, so the whole matrix is NaN. -/
def exM1nan : MyHMM :=
  { eps := 1, pi := [some 0], A := [[none]], labels := [0], N_states := 1 }

/-! ### Supporting lemmas -/

/-- A state with zero out-degree along a path has zero transition counts:
row sums of the count matrix are out-degrees, so the `0/0` (NaN) branch of
`newAPre` is exactly numpy's behaviour on line 142. -/
theorem outCount_eq_zero_transCount (path : List ℕ) (j i : ℕ)
    (h : outCount path j = 0) : transCount path j i = 0 := by
  rw [outCount, List.countP_eq_zero] at h
  rw [transCount, List.countP_eq_zero]
  intro p hp
  have := h p hp
  simp only [decide_eq_true_eq] at this ⊢
  intro hpe
  exact this (by rw [hpe])

/-- Unfolding of the transition update once the decode is known. -/
theorem update_eq (M : MyHMM) (log : ℚ → ℚ) (em : List (List F))
    (q : List ℕ) (hq : M.viterbi em = .ok q) :
    M.viterbi_transition_update log em =
      .ok { M with A := (newAPre M.eps M.N_states q).map (fun r => r.map (Option.map log)) } := by
  unfold MyHMM.viterbi_transition_update
  rw [hq]

/-- Entry of a range-map at an in-range index. -/
theorem getD_map_range {α : Type _} (N j : ℕ) (h : j < N) (f : ℕ → α) (d : α) :
    ((List.range N).map f).getD j d = f j := by
  rw [List.getD_eq_getElem _ d (by simpa using h)]
  simp

/-- Gathering a row succeeds when every label is in range and selects the
labelled columns. -/
theorem gatherRow_ok (labels : List ℕ) (row : List F)
    (h : ∀ l ∈ labels, l < row.length) :
    gatherRow labels row = .ok (labels.map (fun l => row.getD l none)) := by
  induction labels with
  | nil => rfl
  | cons a as ih =>
    have ha : a < row.length := h a (List.mem_cons_self a as)
    rw [gatherRow, dif_pos ha, ih (fun l hl => h l (List.mem_cons_of_mem a hl))]
    simp [List.getElem?_eq_getElem ha]

/-- Gathering a row fails with the ShapeMismatch failure as soon as some
label is out of range. -/
theorem gatherRow_err (labels : List ℕ) (row : List F)
    (h : ∃ l ∈ labels, ¬ l < row.length) :
    gatherRow labels row = .error Err.shapeMismatch := by
  induction labels with
  | nil => simp at h
  | cons a as ih =>
    by_cases ha : a < row.length
    · obtain ⟨l, hl, hnl⟩ := h
      rcases List.mem_cons.mp hl with rfl | hmem
      · exact absurd ha hnl
      · rw [gatherRow, dif_pos ha, ih ⟨l, hmem, hnl⟩]
    · rw [gatherRow, dif_neg ha]

/-- Restriction succeeds on emissions whose labels are all in range,
producing exactly the column selection. -/
theorem restrictEmissions_ok (labels : List ℕ) (em : List (List F)) (L : ℕ)
    (hL : ∀ r ∈ em, r.length = L) (h : ∀ l ∈ labels, l < L) :
    restrictEmissions labels em =
      .ok (em.map (fun r => labels.map (fun l => r.getD l none))) := by
  induction em with
  | nil => rfl
  | cons r rs ih =>
    rw [restrictEmissions,
      gatherRow_ok labels r (by rw [hL r (List.mem_cons_self r rs)]; exact h),
      ih (fun r' hr' => hL r' (List.mem_cons_of_mem r hr'))]
    rfl

/-! ### Claim theorems -/

/-- C5: passing a zero-length emission sequence (T = 0) to forward
evaluation or to Viterbi decoding is rejected with the EmptySequence
failure before any numeric work (the source raises at the `alpha[0]` /
`delta[0]` assignment, the restriction loop having run zero times). -/
theorem empty_sequence_rejected (M : MyHMM) (lseF : List F → F) :
    M.forward lseF [] = .error Err.emptySequence ∧
    M.viterbi [] = .error Err.emptySequence :=
  ⟨rfl, rfl⟩

/-- C6 counterexample: constructing a model whose initial distribution has
length 1 and whose transition matrix is 1×1 over 3 state labels does not
fail: the constructor performs no shape validation and returns a model. -/
theorem init_shape_counterexample :
    MyHMM.init id [0, 1, 2] [1/2] [[1]] 0 =
      .ok { eps := 0, pi := [some (1/2)], A := [[some 1]]
            labels := [0, 1, 2], N_states := 3 } := by
  with_unfolding_all decide

/-- C6 amended: model construction never fails — no `InvalidShape` (or
any other) check is performed — and it always produces a model whose
`initialLogProb` and `transitionLogProb` are `log (x + eps)` elementwise,
with `N_states` the length of `stateLabels`, even when the supplied
initial distribution does not have length N or the transition matrix is
not N×N. -/
theorem init_total_log_eps (log : ℚ → ℚ) (labels : List ℕ) (pi0 : List ℚ)
    (A0 : List (List ℚ)) (eps : ℚ) :
    ∃ m : MyHMM, MyHMM.init log labels pi0 A0 eps = .ok m ∧
      m.eps = eps ∧
      m.pi = pi0.map (fun x => some (log (x + eps))) ∧
      m.A = A0.map (fun r => r.map (fun x => some (log (x + eps)))) ∧
      m.labels = labels ∧ m.N_states = labels.length :=
  ⟨_, rfl, rfl, rfl, rfl, rfl, rfl⟩

/-- C8: a successful transition re-estimation call replaces only the
transition matrix; the epsilon floor, the initial log-probability vector,
the state labels and the state count are unchanged. -/
theorem update_preserves_other_fields (M M' : MyHMM) (log : ℚ → ℚ)
    (em : List (List F))
    (h : M.viterbi_transition_update log em = .ok M') :
    M'.eps = M.eps ∧ M'.pi = M.pi ∧ M'.labels = M.labels ∧
    M'.N_states = M.N_states := by
  cases hv : M.viterbi em with
  | error e =>
    rw [MyHMM.viterbi_transition_update, hv] at h
    exact absurd h (by intro hc; exact Except.noConfusion hc)
  | ok q =>
    rw [update_eq M log em q hv] at h
    cases Except.ok.inj h
    exact ⟨rfl, rfl, rfl, rfl⟩

/-- C8 witness: on a concrete one-state model and two-frame utterance the
update succeeds and the non-transition fields are unchanged. -/
theorem update_preserves_other_fields_witness :
    exM1.viterbi_transition_update id exEm2 = .ok exM1upd ∧
    (exM1upd.eps = exM1.eps ∧ exM1upd.pi = exM1.pi ∧
     exM1upd.labels = exM1.labels ∧ exM1upd.N_states = exM1.N_states) :=
  ⟨by with_unfolding_all decide,
   update_preserves_other_fields exM1 exM1upd id exEm2 (by with_unfolding_all decide)⟩

/-- C9: once the decoded path is stable — re-estimating and then decoding
the same utterance again gives the same best path as the first decode —
a second re-estimation call returns the model (and in particular the
transition matrix) unchanged: the updated matrix is a function of the
decoded path, the epsilon floor and the state count alone. -/
theorem update_idempotent_on_stable_path (M M₁ : MyHMM) (log : ℚ → ℚ)
    (em : List (List F)) (p₀ p₁ : List ℕ)
    (hu : M.viterbi_transition_update log em = .ok M₁)
    (hv0 : M.viterbi em = .ok p₀)
    (hv1 : M₁.viterbi em = .ok p₁)
    (hstable : p₁ = p₀) :
    M₁.viterbi_transition_update log em = .ok M₁ := by
  rw [update_eq M log em p₀ hv0] at hu
  cases Except.ok.inj hu
  rw [update_eq _ log em p₁ hv1, hstable]

/-- C9 witness: on a concrete one-state model the first update yields
`exM1upd`, decoding again still gives `[0, 0]`, and the second update
returns `exM1upd` itself. -/
theorem update_idempotent_on_stable_path_witness :
    exM1upd.viterbi_transition_update id exEm2 = .ok exM1upd :=
  update_idempotent_on_stable_path exM1 exM1upd id exEm2 [0, 0] [0, 0]
    (by with_unfolding_all decide) (by with_unfolding_all decide)
    (by with_unfolding_all decide) rfl

/-- C3 counterexample: on a concrete decode with out-degree 2 the source
adds epsilon to the quotient (`1/2 + 1 = 3/2`), not to the numerator of
the ratio as the claim states (`(1+1)/2 = 1`): the two pre-log matrices
differ. -/
theorem update_eps_placement_counterexample :
    exM2.viterbi exEm3 = .ok [0, 0, 1] ∧
    newAPre exM2.eps exM2.N_states [0, 0, 1] ≠
      claimNewAPre exM2.eps exM2.N_states [0, 0, 1] := by
  with_unfolding_all decide

/-- C3 amended: the update counts each consecutive pair of the decoded
path into an N×N count matrix and an N-length out-degree vector, and for
every row `j` with nonzero out-degree the stored entry is the log of
`counts[j][i] / outDegree[j]` with epsilon added to the ratio (the
quotient, not its numerator) before the log. -/
theorem update_counts_and_ratio (M M' : MyHMM) (log : ℚ → ℚ)
    (em : List (List F)) (q : List ℕ)
    (hq : M.viterbi em = .ok q)
    (hu : M.viterbi_transition_update log em = .ok M')
    (j i : ℕ) (hj : j < M.N_states) (hi : i < M.N_states)
    (hout : outCount q j ≠ 0) :
    M'.A.length = M.N_states ∧ (∀ r ∈ M'.A, r.length = M.N_states) ∧
    (M'.A.getD j []).getD i none =
      some (log ((transCount q j i : ℚ) / (outCount q j : ℚ) + M.eps)) := by
  rw [update_eq M log em q hq] at hu
  cases Except.ok.inj hu
  refine ⟨by simp [newAPre], ?_, ?_⟩
  · intro r hr
    simp only [newAPre, List.mem_map, List.mem_range] at hr
    obtain ⟨r₀, ⟨j₀, hj₀, rfl⟩, rfl⟩ := hr
    simp
  · rw [show (MyHMM.mk M.eps M.pi
        ((newAPre M.eps M.N_states q).map (fun r => r.map (Option.map log)))
        M.labels M.N_states).A =
        (newAPre M.eps M.N_states q).map (fun r => r.map (Option.map log)) from rfl,
      newAPre, List.map_map, getD_map_range _ _ hj]
    simp only [Function.comp]
    rw [List.map_map, getD_map_range _ _ hi]
    simp [hout]

/-- C3 witness: on a concrete run (path `[0,0]`, one self-transition out
of state 0) the updated entry is the log of `1/1 + eps`. -/
theorem update_counts_and_ratio_witness :
    exM1.viterbi_transition_update id exEm2 = .ok exM1upd ∧
    (exM1upd.A.getD 0 []).getD 0 none = some 2 :=
  ⟨by with_unfolding_all decide,
   ((update_counts_and_ratio exM1 exM1upd id exEm2 [0, 0]
      (by with_unfolding_all decide) (by with_unfolding_all decide)
      0 0 (by decide) (by decide) (by with_unfolding_all decide)).2.2).trans
    (by with_unfolding_all decide)⟩

/-- C4 counterexample: decoding the single-frame utterance gives path
`[0]`, state 0 has zero out-degree, and the pre-log row the update
computes is `[NaN]` (numpy `0/0`), not the all-epsilon row `[eps]` the
claim states. -/
theorem zero_outdeg_counterexample :
    exM1.viterbi [[some 0]] = .ok [0] ∧ outCount [0] 0 = 0 ∧
    newAPre exM1.eps exM1.N_states [0] = [[none]] ∧
    ([[none]] : List (List F)) ≠ [[some exM1.eps]] := by
  with_unfolding_all decide

/-- C4 amended: a state with zero out-degree along the decoded path
yields an all-NaN row of the updated matrix (the pre-log entries are the
numpy division `0/0`, not epsilon: epsilon is added after the division
and NaN absorbs it). -/
theorem zero_outdeg_row_nan (M M' : MyHMM) (log : ℚ → ℚ)
    (em : List (List F)) (q : List ℕ)
    (hq : M.viterbi em = .ok q)
    (hu : M.viterbi_transition_update log em = .ok M')
    (j : ℕ) (hj : j < M.N_states) (hout : outCount q j = 0) :
    M'.A.getD j [] = List.replicate M.N_states none := by
  rw [update_eq M log em q hq] at hu
  cases Except.ok.inj hu
  rw [show (MyHMM.mk M.eps M.pi
        ((newAPre M.eps M.N_states q).map (fun r => r.map (Option.map log)))
        M.labels M.N_states).A =
        (newAPre M.eps M.N_states q).map (fun r => r.map (Option.map log)) from rfl,
    newAPre, List.map_map, getD_map_range _ _ hj]
  simp [hout, List.map_const']

/-- C4 witness: updating on the single-frame utterance produces the
one-state model whose row 0 is the all-NaN row. -/
theorem zero_outdeg_row_nan_witness :
    exM1.viterbi_transition_update id [[some 0]] = .ok exM1nan ∧
    exM1nan.A.getD 0 [] = List.replicate exM1.N_states none :=
  ⟨by with_unfolding_all decide,
   zero_outdeg_row_nan exM1 exM1nan id [[some 0]] [0]
     (by with_unfolding_all decide) (by with_unfolding_all decide)
     0 (by decide) (by decide)⟩

/-- C7 counterexample: with zero frames the restriction loop never runs,
so an out-of-range state label does not fail: the step returns the empty
matrix instead of the ShapeMismatch failure the claim requires. -/
theorem restrict_empty_counterexample :
    restrictEmissions [5] ([] : List (List F)) = .ok [] ∧
    restrictEmissions [5] ([] : List (List F)) ≠ .error Err.shapeMismatch := by
  with_unfolding_all decide

/-- C7 amended: for a T×L emission sequence the restriction step fails
with the ShapeMismatch failure whenever T ≥ 1 and some label is out of
range for L; when every label is in range it produces the T×N matrix with
entry `[t][j]` equal to `emission[t][stateLabels[j]]` (and for T = 0 it
returns the empty matrix without checking the labels). -/
theorem restrict_spec (labels : List ℕ) (em : List (List F)) (L : ℕ)
    (hL : ∀ r ∈ em, r.length = L) :
    (em ≠ [] → (∃ l ∈ labels, L ≤ l) →
      restrictEmissions labels em = .error Err.shapeMismatch) ∧
    ((∀ l ∈ labels, l < L) →
      restrictEmissions labels em =
        .ok (em.map (fun r => labels.map (fun l => r.getD l none)))) := by
  constructor
  · intro hne hoob
    match em with
    | r :: rs =>
      obtain ⟨l, hl, hLl⟩ := hoob
      rw [restrictEmissions,
        gatherRow_err labels r ⟨l, hl, by rw [hL r (List.mem_cons_self r rs)]; omega⟩]
  · exact restrictEmissions_ok labels em L hL

/-- C7 witness: restricting a one-frame two-class emission row by labels
`[1, 0]` swaps the two columns. -/
theorem restrict_spec_witness :
    restrictEmissions [1, 0] [[some 1, none]] = .ok [[none, some 1]] :=
  ((restrict_spec [1, 0] [[some 1, none]] 2 (by decide)).2
    (by decide)).trans (by with_unfolding_all decide)

/-- Every successful forward call returns the unchanged model as the
final object state (the method body assigns no `self` field). -/
theorem forward_call_snd (M : MyHMM) (lseF : List F → F)
    (em : List (List F)) (p : F × MyHMM)
    (hp : M.forward_call lseF em = .ok p) : p.2 = M := by
  unfold MyHMM.forward_call at hp
  split at hp
  · exact absurd hp (fun h => Except.noConfusion h)
  · exact absurd hp (fun h => Except.noConfusion h)
  · split at hp
    · cases Except.ok.inj hp
      rfl
    · exact absurd hp (fun h => Except.noConfusion h)

/-- Every successful Viterbi call returns the unchanged model as the
final object state (the method body assigns no `self` field). -/
theorem viterbi_call_snd (M : MyHMM) (em : List (List F))
    (p : List ℕ × MyHMM)
    (hp : M.viterbi_call em = .ok p) : p.2 = M := by
  unfold MyHMM.viterbi_call at hp
  split at hp
  · exact absurd hp (fun h => Except.noConfusion h)
  · exact absurd hp (fun h => Except.noConfusion h)
  · split at hp
    split at hp
    · exact absurd hp (fun h => Except.noConfusion h)
    · cases Except.ok.inj hp
      rfl

/-- C10: forward evaluation and Viterbi decoding write none of the
model's fields: threaded through the method bodies as an explicit object
state, the model comes back unchanged from every successful call, and a
second call on the returned model yields the identical result (two
consecutive calls observe the same model state).  The emission matrix is
likewise only read: the restriction step builds a fresh working matrix. -/
theorem forward_viterbi_pure (M : MyHMM) (lseF : List F → F)
    (em : List (List F)) :
    (∀ p, M.forward_call lseF em = .ok p →
      p.2 = M ∧ p.2.forward_call lseF em = .ok p) ∧
    (∀ p, M.viterbi_call em = .ok p →
      p.2 = M ∧ p.2.viterbi_call em = .ok p) :=
  ⟨fun p hp => ⟨forward_call_snd M lseF em p hp,
     by rw [forward_call_snd M lseF em p hp]; exact hp⟩,
   fun p hp => ⟨viterbi_call_snd M em p hp,
     by rw [viterbi_call_snd M em p hp]; exact hp⟩⟩

set_option maxRecDepth 4000 in
/-- C10 witness: on a concrete model and utterance both calls succeed and
return the unchanged model. -/
theorem forward_viterbi_pure_witness :
    exM2.forward_call (liftLse lseSum) exEm3 = .ok (some (-500), exM2) ∧
    exM2.viterbi_call exEm3 = .ok ([0, 0, 1], exM2) ∧
    (some (-500 : ℚ), exM2).2 = exM2 ∧
    ([0, 0, 1], exM2).2.viterbi_call exEm3 = .ok ([0, 0, 1], exM2) :=
  ⟨by with_unfolding_all decide, by with_unfolding_all decide,
   ((forward_viterbi_pure exM2 (liftLse lseSum) exEm3).1
      (some (-500), exM2) (by with_unfolding_all decide)).1,
   ((forward_viterbi_pure exM2 (liftLse lseSum) exEm3).2
      ([0, 0, 1], exM2) (by with_unfolding_all decide)).2⟩

/-! ### Bridging lemmas between the embedded numpy code and the spec's
rational-valued recursions -/

/-- Presenting a map over a list as a map over its index range. -/
theorem map_eq_range_map {α β : Type _} (l : List α) (d : α) (f : α → β) :
    l.map f = (List.range l.length).map (fun k => f (l.getD k d)) := by
  apply List.ext_getElem (by simp)
  intro k h1 h2
  have hk : k < l.length := by simpa using h1
  simp [List.getElem?_eq_getElem hk]

/-- Entry of an all-finite float row. -/
theorem getD_map_some (r : List ℚ) (l : ℕ) (h : l < r.length) :
    (r.map some).getD l none = some (r.getD l 0) := by
  rw [List.getD_eq_getElem _ none (by simpa using h), List.getD_eq_getElem r 0 h]
  simp

/-- Traversing an all-finite float row recovers its rational values. -/
theorem mapM_id_map_some (l : List ℚ) :
    ((l.map some).mapM (id : Option ℚ → Option ℚ)) = some l := by
  induction l with
  | nil => rfl
  | cons x xs ih =>
    rw [List.map_cons, List.mapM_cons, ih]
    rfl

/-- The lifted logsumexp agrees with the rational one on NaN-free rows. -/
theorem liftLse_map_some (lse : List ℚ → ℚ) (l : List ℚ) :
    liftLse lse (l.map some) = some (lse l) := by
  unfold liftLse
  rw [mapM_id_map_some]
  rfl

/-- Last entry of a nonempty range-map (`alpha[-1][-1]` selection). -/
theorem getLast?_range_map {α : Type _} (N : ℕ) (hN : N ≠ 0) (f : ℕ → α) :
    ((List.range N).map f).getLast? = some (f (N - 1)) := by
  rw [List.getLast?_eq_getElem?]
  have h : N - 1 < N := Nat.sub_lt (Nat.pos_of_ne_zero hN) one_pos
  simp [List.getElem?_map, List.getElem?_range, h]

/-- Restriction of an all-finite emission matrix, in rational terms. -/
theorem restrict_rows (labels : List ℕ) (em : List (List ℚ)) (L : ℕ)
    (hem : ∀ r ∈ em, r.length = L) (hlab : ∀ l ∈ labels, l < L) :
    restrictEmissions labels (em.map (fun r => r.map some)) =
      .ok (em.map (fun r => labels.map (fun l => some (r.getD l 0)))) := by
  rw [restrictEmissions_ok labels _ L
    (by intro r hr
        obtain ⟨r₀, hr₀, rfl⟩ := List.mem_map.mp hr
        simp [hem r₀ hr₀])
    hlab]
  congr 1
  rw [List.map_map]
  apply List.map_congr_left
  intro r hr
  apply List.map_congr_left
  intro l hl
  exact getD_map_some r l (by rw [hem r hr]; exact hlab l hl)

/-- A restricted row written through the spec's state-emission function. -/
theorem row_as_se (labels : List ℕ) (em : List (List ℚ)) (e : List ℚ) (t : ℕ)
    (he : em.getD t [] = e) :
    labels.map (fun l => some (e.getD l 0)) =
      (List.range labels.length).map (fun j => some (seQ em labels t j)) := by
  subst he
  exact map_eq_range_map labels 0 (fun l => some ((em.getD t []).getD l 0))

/-- The restricted rows after the first, as state-emission rows for times
`1 .. T-1`. -/
theorem tail_rows (labels : List ℕ) (em : List (List ℚ)) (e0 : List ℚ)
    (erest : List (List ℚ)) (h : em = e0 :: erest) :
    erest.map (fun r => labels.map (fun l => some (r.getD l 0))) =
      (List.range' 1 erest.length).map
        (fun t => (List.range labels.length).map (fun j => some (seQ em labels t j))) := by
  apply List.ext_getElem (by simp)
  intro k h1 h2
  have hk : k < erest.length := by simpa using h1
  rw [List.getElem_map, List.getElem_map, List.getElem_range', one_mul]
  refine row_as_se labels em (erest[k]) (1 + k) ?_
  subst h
  rw [show 1 + k = k + 1 by omega]
  rw [List.getD_cons_succ]
  exact List.getD_eq_getElem erest [] hk

/-- Elementwise sum of a finite previous row with a transition column. -/
theorem zip_fadd_ranges (prevF : ℕ → ℚ) (AQ : List (List ℚ)) (N i : ℕ)
    (hA : AQ.length = N) (hArows : ∀ r ∈ AQ, r.length = N) (hi : i < N) :
    List.zipWith fadd ((List.range N).map (fun j => some (prevF j)))
      (colA (AQ.map (fun r => r.map some)) i)
    = (List.range N).map (fun j => some (prevF j + (AQ.getD j []).getD i 0)) := by
  unfold colA
  rw [List.map_map]
  apply List.ext_getElem
  · simp [hA]
  · intro k h1 h2
    have hkN : k < N := by simpa using h2
    have hkA : k < AQ.length := by omega
    rw [List.getElem_zipWith, List.getElem_map, List.getElem_map, List.getElem_map,
      List.getElem_range]
    simp only [Function.comp]
    rw [getD_map_some (AQ[k]) i (by rw [hArows _ (List.getElem_mem hkA)]; exact hi),
      List.getD_eq_getElem AQ [] hkA]
    rfl

/-- One forward induction step maps the spec's alpha row at time `t` to
the row at time `t+1`. -/
theorem nextAlphaRow_spec (lse : List ℚ → ℚ) (piQ : List ℚ)
    (AQ : List (List ℚ)) (N : ℕ) (se : ℕ → ℕ → ℚ)
    (hA : AQ.length = N) (hArows : ∀ r ∈ AQ, r.length = N) (t : ℕ) :
    nextAlphaRow (liftLse lse) (AQ.map (fun r => r.map some)) N
      ((List.range N).map (fun j => some (alphaSpec lse piQ AQ N se t j)))
      ((List.range N).map (fun j => some (se (t + 1) j)))
    = (List.range N).map (fun i => some (alphaSpec lse piQ AQ N se (t + 1) i)) := by
  unfold nextAlphaRow
  apply List.map_congr_left
  intro i hi
  have hiN : i < N := List.mem_range.mp hi
  rw [zip_fadd_ranges _ AQ N i hA hArows hiN,
    getD_map_range N i hiN,
    show ((List.range N).map (fun j =>
        some (alphaSpec lse piQ AQ N se t j + (AQ.getD j []).getD i 0))) =
      ((List.range N).map (fun j =>
        alphaSpec lse piQ AQ N se t j + (AQ.getD j []).getD i 0)).map some by
      rw [List.map_map]; rfl,
    liftLse_map_some]
  rfl

/-- The forward fold over restricted rows `t0+1 .. t0+k` advances the
spec's alpha row from time `t0` to time `t0+k`. -/
theorem alpha_fold (lse : List ℚ → ℚ) (piQ : List ℚ) (AQ : List (List ℚ))
    (N : ℕ) (se : ℕ → ℕ → ℚ)
    (hA : AQ.length = N) (hArows : ∀ r ∈ AQ, r.length = N) :
    ∀ (k t0 : ℕ),
      ((List.range' (t0 + 1) k).map
          (fun t => (List.range N).map (fun j => some (se t j)))).foldl
        (fun prev r => nextAlphaRow (liftLse lse) (AQ.map (fun r => r.map some)) N prev r)
        ((List.range N).map (fun i => some (alphaSpec lse piQ AQ N se t0 i)))
      = (List.range N).map (fun i => some (alphaSpec lse piQ AQ N se (t0 + k) i)) := by
  intro k
  induction k with
  | zero => intro t0; rfl
  | succ k ih =>
    intro t0
    rw [List.range'_succ, List.map_cons, List.foldl_cons,
      nextAlphaRow_spec lse piQ AQ N se hA hArows t0,
      show t0 + (k + 1) = (t0 + 1) + k by omega]
    exact ih (t0 + 1)

/-- C1: for every model with N ≥ 1 states and every emission sequence
with T ≥ 1 frames (all labels in range), forward evaluation returns
exactly `alpha[T-1][N-1]` of the spec's log-domain recursion — the
final-state entry only, with no marginalization over states at the final
timestep. -/
theorem forward_returns_final_alpha (lse : List ℚ → ℚ) (eps : ℚ)
    (piQ : List ℚ) (AQ : List (List ℚ)) (labels : List ℕ)
    (em : List (List ℚ)) (L : ℕ)
    (hN : labels.length ≠ 0)
    (hpi : piQ.length = labels.length)
    (hA : AQ.length = labels.length)
    (hArows : ∀ r ∈ AQ, r.length = labels.length)
    (hem : ∀ r ∈ em, r.length = L)
    (hT : em ≠ [])
    (hlab : ∀ l ∈ labels, l < L) :
    (MyHMM.mk eps (piQ.map some) (AQ.map (fun r => r.map some))
        labels labels.length).forward
      (liftLse lse) (em.map (fun r => r.map some))
    = .ok (some (alphaSpec lse piQ AQ labels.length (seQ em labels)
        (em.length - 1) (labels.length - 1))) := by
  match em, hT with
  | e0 :: erest, _ =>
    unfold MyHMM.forward
    rw [show (MyHMM.mk eps (piQ.map some) (AQ.map (fun r => r.map some))
        labels labels.length).labels = labels from rfl,
      restrict_rows labels (e0 :: erest) L hem hlab, List.map_cons]
    have hrow0 : labels.map (fun l => some (e0.getD l 0)) =
        (List.range labels.length).map
          (fun j => some (seQ (e0 :: erest) labels 0 j)) :=
      row_as_se labels (e0 :: erest) e0 0 rfl
    have halpha0 : List.zipWith fadd (piQ.map some)
        (labels.map (fun l => some (e0.getD l 0))) =
        (List.range labels.length).map
          (fun i => some (alphaSpec lse piQ AQ labels.length
            (seQ (e0 :: erest) labels) 0 i)) := by
      rw [hrow0]
      apply List.ext_getElem
      · simp [hpi]
      · intro k h1 h2
        have hkN : k < labels.length := by simpa using h2
        have hkpi : k < piQ.length := by omega
        rw [List.getElem_zipWith, List.getElem_map, List.getElem_map,
          List.getElem_map, List.getElem_range]
        show fadd (some (piQ[k])) (some (seQ (e0 :: erest) labels 0 k)) = _
        have hdef : alphaSpec lse piQ AQ labels.length (seQ (e0 :: erest) labels) 0 k =
            piQ.getD k 0 + seQ (e0 :: erest) labels 0 k := rfl
        rw [hdef, List.getD_eq_getElem piQ 0 hkpi]
        rfl
    dsimp only
    rw [halpha0, tail_rows labels (e0 :: erest) e0 erest rfl,
      alpha_fold lse piQ AQ labels.length (seQ (e0 :: erest) labels) hA hArows
        erest.length 0,
      getLast?_range_map labels.length hN,
      show (0 : ℕ) + erest.length = (e0 :: erest).length - 1 by simp]

set_option maxRecDepth 4000 in
/-- C1 witness: a concrete two-state model and three-frame utterance,
with the summing stand-in for logsumexp: the score is the spec recursion's
bottom-right alpha entry. -/
theorem forward_returns_final_alpha_witness :
    (MyHMM.mk 1 (([0, -100] : List ℚ).map some)
        (([[0, 0], [0, 0]] : List (List ℚ)).map (fun r => r.map some))
        [0, 1] 2).forward (liftLse lseSum)
      (([[0, -100], [0, -100], [-100, 0]] : List (List ℚ)).map (fun r => r.map some))
    = .ok (some (-500)) :=
  (forward_returns_final_alpha lseSum 1 [0, -100] [[0, 0], [0, 0]] [0, 1]
    [[0, -100], [0, -100], [-100, 0]] 2
    (by decide) (by decide) (by decide) (by decide) (by decide) (by decide)
    (by decide)).trans (by with_unfolding_all decide)

/-- The seed is below the running maximum of a fold. -/
theorem le_foldl_max (xs : List ℚ) : ∀ x : ℚ, x ≤ xs.foldl max x := by
  induction xs with
  | nil => intro x; exact le_refl x
  | cons z zs ih =>
    intro x
    exact le_trans (le_max_left x z) (ih (max x z))

/-- The numpy argmax loop, specified: starting with current maximum `m`,
best index `b` and next absolute index `i`, the loop returns `b` when no
later element strictly exceeds `m`, and otherwise the absolute index of
the first element attaining the final maximum. -/
theorem argmaxGoQ_spec (xs : List ℚ) : ∀ (m : ℚ) (i b : ℕ),
    argmaxGoQ xs m i b =
      if m < xs.foldl max m
      then i + xs.findIdx (fun y => decide (xs.foldl max m ≤ y))
      else b := by
  induction xs with
  | nil =>
    intro m i b
    rw [argmaxGoQ]
    simp
  | cons x xs ih =>
    intro m i b
    rw [argmaxGoQ]
    by_cases hx : m < x
    · rw [if_pos hx, ih x (i + 1) i,
        show (x :: xs).foldl max m = xs.foldl max x by
          rw [List.foldl_cons, max_eq_right (le_of_lt hx)]]
      have hxM : x ≤ xs.foldl max x := le_foldl_max xs x
      by_cases hxM2 : x < xs.foldl max x
      · rw [if_pos hxM2, if_pos (lt_trans hx hxM2), List.findIdx_cons,
          decide_eq_false (not_le.mpr hxM2)]
        simp only [Bool.cond_false]
        omega
      · rw [if_neg hxM2, if_pos (lt_of_lt_of_le hx hxM), List.findIdx_cons,
          decide_eq_true (le_of_not_lt hxM2)]
        simp only [Bool.cond_true]
        omega
    · rw [if_neg hx, ih m (i + 1) b,
        show (x :: xs).foldl max m = xs.foldl max m by
          rw [List.foldl_cons, max_eq_left (le_of_not_lt hx)]]
      by_cases hm : m < xs.foldl max m
      · rw [if_pos hm, if_pos hm, List.findIdx_cons,
          decide_eq_false (not_le.mpr (lt_of_le_of_lt (le_of_not_lt hx) hm))]
        simp only [Bool.cond_false]
        omega
      · rw [if_neg hm, if_neg hm]

/-- The float argmax loop agrees with the rational one on NaN-free rows. -/
theorem fargmaxGo_map_some (xs : List ℚ) : ∀ (m : ℚ) (i b : ℕ),
    fargmaxGo (xs.map some) m i b = argmaxGoQ xs m i b := by
  induction xs with
  | nil => intro m i b; rfl
  | cons x xs ih =>
    intro m i b
    rw [List.map_cons, fargmaxGo, argmaxGoQ]
    by_cases hx : m < x
    · rw [if_pos hx, if_pos hx, ih]
    · rw [if_neg hx, if_neg hx, ih]

/-- The float max reduction agrees with the rational one on NaN-free rows. -/
theorem foldl_fmax2_map_some (xs : List ℚ) : ∀ x : ℚ,
    (xs.map some).foldl fmax2 (some x) = some (xs.foldl max x) := by
  induction xs with
  | nil => intro x; rfl
  | cons y ys ih =>
    intro x
    rw [List.map_cons, List.foldl_cons, List.foldl_cons]
    exact ih (max x y)

/-- `np.max` of a nonempty NaN-free row is its rational maximum. -/
theorem fmaxList_map_some (l : List ℚ) (hl : l ≠ []) :
    fmaxList (l.map some) = some (maxQ l) := by
  match l, hl with
  | x :: xs, _ =>
    rw [List.map_cons, fmaxList, maxQ]
    exact foldl_fmax2_map_some xs x

/-- `np.argmax` of a nonempty NaN-free row is the smallest index attaining
the maximum (the spec's first-occurrence tie-break). -/
theorem fargmax_map_some (l : List ℚ) (hl : l ≠ []) :
    fargmax (l.map some) = argmaxSpec l := by
  match l, hl with
  | x :: xs, _ =>
    rw [List.map_cons, fargmax, fargmaxGo_map_some, argmaxGoQ_spec]
    unfold argmaxSpec
    rw [List.findIdx_cons,
      show maxQ (x :: xs) = xs.foldl max x from rfl]
    have hxM : x ≤ xs.foldl max x := le_foldl_max xs x
    by_cases hx : x < xs.foldl max x
    · rw [if_pos hx, decide_eq_false (not_le.mpr hx)]
      simp only [Bool.cond_false]
      omega
    · rw [if_neg hx, decide_eq_true (le_of_not_lt hx)]
      simp only [Bool.cond_true]

/-- The running maximum of a fold is the seed or an element. -/
theorem foldl_max_mem (xs : List ℚ) : ∀ x : ℚ,
    xs.foldl max x = x ∨ xs.foldl max x ∈ xs := by
  induction xs with
  | nil => intro x; left; rfl
  | cons y ys ih =>
    intro x
    rw [List.foldl_cons]
    rcases ih (max x y) with h | h
    · rcases max_choice x y with hm | hm
      · left; rw [h, hm]
      · right; rw [h, hm]; exact List.mem_cons_self y ys
    · right; exact List.mem_cons_of_mem y h

/-- The smallest maximizing index of a nonempty row is in range. -/
theorem argmaxSpec_lt_length (l : List ℚ) (hl : l ≠ []) :
    argmaxSpec l < l.length := by
  match l, hl with
  | x :: xs, _ =>
    apply List.findIdx_lt_length_of_exists
    rcases foldl_max_mem xs x with h | h
    · exact ⟨x, List.mem_cons_self x xs,
        by rw [show maxQ (x :: xs) = xs.foldl max x from rfl, h]; simp⟩
    · exact ⟨xs.foldl max x, List.mem_cons_of_mem x h, by simp [maxQ]⟩

/-- Decoded states are always in range `[0, N-1]`: every entry of the
spec path is an argmax over an N-vector. -/
theorem qSpecFrom_lt (piQ : List ℚ) (AQ : List (List ℚ)) (N : ℕ)
    (se : ℕ → ℕ → ℚ) (T : ℕ) (hN : N ≠ 0) :
    ∀ k, qSpecFrom piQ AQ N se T k < N := by
  have hne : ∀ f : ℕ → ℚ, (List.range N).map f ≠ [] := by
    intro f h
    rw [List.map_eq_nil_iff, List.range_eq_nil] at h
    exact hN h
  intro k
  cases k with
  | zero =>
    rw [qSpecFrom]
    have := argmaxSpec_lt_length _ (hne (fun i => deltaSpec piQ AQ N se (T - 1) i))
    simpa using this
  | succ k =>
    rw [qSpecFrom]
    unfold psiSpec
    have := argmaxSpec_lt_length _ (hne (fun j =>
      deltaSpec piQ AQ N se (T - 1 - k - 1) j +
        (AQ.getD j []).getD (qSpecFrom piQ AQ N se T k) 0))
    simpa using this

/-- One Viterbi score step maps the spec's delta row at time `t` to the
row at time `t+1`. -/
theorem nextDeltaRow_spec (piQ : List ℚ) (AQ : List (List ℚ)) (N : ℕ)
    (se : ℕ → ℕ → ℚ)
    (hA : AQ.length = N) (hArows : ∀ r ∈ AQ, r.length = N) (hN : N ≠ 0)
    (t : ℕ) :
    nextDeltaRow (AQ.map (fun r => r.map some)) N
      ((List.range N).map (fun j => some (deltaSpec piQ AQ N se t j)))
      ((List.range N).map (fun j => some (se (t + 1) j)))
    = (List.range N).map (fun i => some (deltaSpec piQ AQ N se (t + 1) i)) := by
  unfold nextDeltaRow
  apply List.map_congr_left
  intro i hi
  have hiN : i < N := List.mem_range.mp hi
  rw [zip_fadd_ranges _ AQ N i hA hArows hiN, getD_map_range N i hiN,
    show ((List.range N).map (fun j =>
        some (deltaSpec piQ AQ N se t j + (AQ.getD j []).getD i 0))) =
      ((List.range N).map (fun j =>
        deltaSpec piQ AQ N se t j + (AQ.getD j []).getD i 0)).map some by
      rw [List.map_map]; rfl,
    fmaxList_map_some _ (by
      intro h
      rw [List.map_eq_nil_iff, List.range_eq_nil] at h
      exact hN h)]
  rfl

/-- One backpointer step records the spec's psi row for time `t+1`. -/
theorem nextPsiRow_spec (piQ : List ℚ) (AQ : List (List ℚ)) (N : ℕ)
    (se : ℕ → ℕ → ℚ)
    (hA : AQ.length = N) (hArows : ∀ r ∈ AQ, r.length = N) (hN : N ≠ 0)
    (t : ℕ) :
    nextPsiRow (AQ.map (fun r => r.map some)) N
      ((List.range N).map (fun j => some (deltaSpec piQ AQ N se t j)))
    = (List.range N).map (fun i => psiSpec piQ AQ N se (t + 1) i) := by
  unfold nextPsiRow
  apply List.map_congr_left
  intro i hi
  have hiN : i < N := List.mem_range.mp hi
  rw [zip_fadd_ranges _ AQ N i hA hArows hiN,
    show ((List.range N).map (fun j =>
        some (deltaSpec piQ AQ N se t j + (AQ.getD j []).getD i 0))) =
      ((List.range N).map (fun j =>
        deltaSpec piQ AQ N se t j + (AQ.getD j []).getD i 0)).map some by
      rw [List.map_map]; rfl,
    fargmax_map_some _ (by
      intro h
      rw [List.map_eq_nil_iff, List.range_eq_nil] at h
      exact hN h)]
  rfl

/-- The Viterbi fold over restricted rows `t0+1 .. t0+k` advances the
spec's delta row from time `t0` to `t0+k` while appending the spec's psi
rows for times `t0+1 .. t0+k`. -/
theorem delta_fold (piQ : List ℚ) (AQ : List (List ℚ)) (N : ℕ)
    (se : ℕ → ℕ → ℚ)
    (hA : AQ.length = N) (hArows : ∀ r ∈ AQ, r.length = N) (hN : N ≠ 0) :
    ∀ (k t0 : ℕ) (acc : List (List ℕ)),
      ((List.range' (t0 + 1) k).map
          (fun t => (List.range N).map (fun j => some (se t j)))).foldl
        (fun (a : List F × List (List ℕ)) r =>
          (nextDeltaRow (AQ.map (fun r => r.map some)) N a.1 r,
           a.2 ++ [nextPsiRow (AQ.map (fun r => r.map some)) N a.1]))
        ((List.range N).map (fun i => some (deltaSpec piQ AQ N se t0 i)), acc)
      = ((List.range N).map (fun i => some (deltaSpec piQ AQ N se (t0 + k) i)),
         acc ++ (List.range' (t0 + 1) k).map
           (fun t => (List.range N).map (fun i => psiSpec piQ AQ N se t i))) := by
  intro k
  induction k with
  | zero => intro t0 acc; simp
  | succ k ih =>
    intro t0 acc
    rw [List.range'_succ, List.map_cons, List.foldl_cons]
    show (((List.range' (t0 + 1 + 1) k).map
        (fun t => (List.range N).map (fun j => some (se t j)))).foldl _
      (nextDeltaRow (AQ.map (fun r => r.map some)) N
        ((List.range N).map (fun i => some (deltaSpec piQ AQ N se t0 i)))
        ((List.range N).map (fun j => some (se (t0 + 1) j))),
       acc ++ [nextPsiRow (AQ.map (fun r => r.map some)) N
        ((List.range N).map (fun i => some (deltaSpec piQ AQ N se t0 i)))])) = _
    rw [nextDeltaRow_spec piQ AQ N se hA hArows hN t0,
      nextPsiRow_spec piQ AQ N se hA hArows hN t0,
      ih (t0 + 1) (acc ++ [(List.range N).map
        (fun i => psiSpec piQ AQ N se (t0 + 1) i)]),
      show t0 + (k + 1) = (t0 + 1) + k by omega]
    simp only [List.range'_succ, List.map_cons, List.append_assoc,
      List.singleton_append]

/-- The backtracking loop computes the functional backtracking chain. -/
theorem btkRev_spec (psi : ℕ → List ℕ) :
    ∀ (m q : ℕ), btkRev (((List.range' 1 m).map psi).reverse) q =
      (List.range (m + 1)).map (fun t => pfAux psi m q (m - t)) := by
  intro m
  induction m with
  | zero => intro q; rfl
  | succ m ih =>
    intro q
    rw [List.range'_concat, one_mul, List.map_append, List.reverse_append]
    simp only [List.map_cons, List.map_nil, List.reverse_cons, List.reverse_nil,
      List.nil_append, List.singleton_append]
    rw [btkRev, ih ((psi (1 + m)).getD q 0)]
    nth_rewrite 2 [List.range_succ]
    rw [List.map_append]
    have hstep : ∀ k, pfAux psi (m + 1) q (k + 1) =
        pfAux psi m ((psi (1 + m)).getD q 0) k := by
      intro k
      induction k with
      | zero =>
        rw [pfAux, pfAux]
        rw [show m + 1 - 0 = 1 + m by omega]
        rfl
      | succ k ihk =>
        rw [pfAux, ihk, pfAux]
        rw [show m + 1 - (k + 1) = m - k by omega]
    congr 1
    · apply List.map_congr_left
      intro t ht
      have htm : t < m + 1 := List.mem_range.mp ht
      rw [show m + 1 - t = (m - t) + 1 by omega, hstep (m - t)]
    · simp only [List.map_cons, List.map_nil]
      rw [show m + 1 - (m + 1) = 0 by omega]
      rfl

/-- The backtracking chain started at the termination argmax is the spec's
decoded path read from the end. -/
theorem pfAux_eq_qSpecFrom (piQ : List ℚ) (AQ : List (List ℚ)) (N : ℕ)
    (se : ℕ → ℕ → ℚ) (hN : N ≠ 0) (m : ℕ) :
    ∀ k, pfAux (fun t => (List.range N).map
        (fun i => psiSpec piQ AQ N se t i)) m
        (qSpecFrom piQ AQ N se (m + 1) 0) k
      = qSpecFrom piQ AQ N se (m + 1) k := by
  intro k
  induction k with
  | zero => rfl
  | succ k ih =>
    rw [pfAux, ih]
    exact getD_map_range N (qSpecFrom piQ AQ N se (m + 1) k)
      (qSpecFrom_lt piQ AQ N se (m + 1) hN k)
      (fun i => psiSpec piQ AQ N se (m - k) i) 0

/-- C2: for every well-shaped finite-valued model with N ≥ 1 states and
every emission sequence with T ≥ 1 frames (labels in range), Viterbi
decoding returns exactly the spec's max-sum path: delta/psi recursion with
the smallest-maximizing-index tie-break, termination by first-occurrence
argmax over the final delta row, and backpointer backtracking; the path
has length T and every entry lies in `[0, N-1]`. -/
theorem viterbi_matches_maxsum (eps : ℚ) (piQ : List ℚ) (AQ : List (List ℚ))
    (labels : List ℕ) (em : List (List ℚ)) (L : ℕ)
    (hN : labels.length ≠ 0)
    (hpi : piQ.length = labels.length)
    (hA : AQ.length = labels.length)
    (hArows : ∀ r ∈ AQ, r.length = labels.length)
    (hem : ∀ r ∈ em, r.length = L)
    (hT : em ≠ [])
    (hlab : ∀ l ∈ labels, l < L) :
    (MyHMM.mk eps (piQ.map some) (AQ.map (fun r => r.map some))
        labels labels.length).viterbi (em.map (fun r => r.map some))
      = .ok (pathSpec piQ AQ labels.length (seQ em labels) em.length) ∧
    (pathSpec piQ AQ labels.length (seQ em labels) em.length).length = em.length ∧
    (∀ x ∈ pathSpec piQ AQ labels.length (seQ em labels) em.length,
      x < labels.length) := by
  refine ⟨?_, by simp [pathSpec], ?_⟩
  · match em, hT with
    | e0 :: erest, _ =>
      unfold MyHMM.viterbi
      rw [show (MyHMM.mk eps (piQ.map some) (AQ.map (fun r => r.map some))
          labels labels.length).labels = labels from rfl,
        restrict_rows labels (e0 :: erest) L hem hlab, List.map_cons]
      dsimp only
      have hdelta0 : List.zipWith fadd (piQ.map some)
          (labels.map (fun l => some (e0.getD l 0))) =
          (List.range labels.length).map
            (fun i => some (deltaSpec piQ AQ labels.length
              (seQ (e0 :: erest) labels) 0 i)) := by
        rw [row_as_se labels (e0 :: erest) e0 0 rfl]
        apply List.ext_getElem
        · simp [hpi]
        · intro k h1 h2
          have hkN : k < labels.length := by simpa using h2
          have hkpi : k < piQ.length := by omega
          rw [List.getElem_zipWith, List.getElem_map, List.getElem_map,
            List.getElem_map, List.getElem_range]
          show fadd (some (piQ[k])) (some (seQ (e0 :: erest) labels 0 k)) = _
          have hdef : deltaSpec piQ AQ labels.length
              (seQ (e0 :: erest) labels) 0 k =
              piQ.getD k 0 + seQ (e0 :: erest) labels 0 k := rfl
          rw [hdef, List.getD_eq_getElem piQ 0 hkpi]
          rfl
      rw [hdelta0, tail_rows labels (e0 :: erest) e0 erest rfl,
        delta_fold piQ AQ labels.length (seQ (e0 :: erest) labels) hA hArows hN
          erest.length 0 [], List.nil_append]
      dsimp only
      simp only [Nat.zero_add]
      have hcond : ¬(((List.range labels.length).map
          (fun i => some (deltaSpec piQ AQ labels.length
            (seQ (e0 :: erest) labels) erest.length i))).isEmpty = true) := by
        simp [List.map_eq_nil_iff, List.range_eq_nil, hN]
      rw [if_neg hcond,
        show ((List.range labels.length).map
            (fun i => some (deltaSpec piQ AQ labels.length
              (seQ (e0 :: erest) labels) erest.length i))) =
          ((List.range labels.length).map
            (fun i => deltaSpec piQ AQ labels.length
              (seQ (e0 :: erest) labels) erest.length i)).map some by
          rw [List.map_map]; rfl,
        fargmax_map_some _ (by
          intro h
          rw [List.map_eq_nil_iff, List.range_eq_nil] at h
          exact hN h),
        btkRev_spec (fun t => (List.range labels.length).map
          (fun i => psiSpec piQ AQ labels.length
            (seQ (e0 :: erest) labels) t i)) erest.length]
      refine congrArg Except.ok ?_
      apply List.map_congr_left
      intro t ht
      have hq : argmaxSpec ((List.range labels.length).map
          (fun i => deltaSpec piQ AQ labels.length
            (seQ (e0 :: erest) labels) erest.length i)) =
          qSpecFrom piQ AQ labels.length (seQ (e0 :: erest) labels)
            (erest.length + 1) 0 := rfl
      rw [hq]
      exact pfAux_eq_qSpecFrom piQ AQ labels.length
        (seQ (e0 :: erest) labels) hN erest.length (erest.length - t)
  · intro x hx
    simp only [pathSpec, List.mem_map] at hx
    obtain ⟨t, ht, rfl⟩ := hx
    exact qSpecFrom_lt piQ AQ labels.length (seQ em labels) em.length hN _

set_option maxRecDepth 8000 in
/-- C2 witness: on a concrete two-state model and three-frame utterance
the decoded path is `[0, 0, 1]`, equal to the spec's max-sum path. -/
theorem viterbi_matches_maxsum_witness :
    (MyHMM.mk 1 (([0, -100] : List ℚ).map some)
        (([[0, 0], [0, 0]] : List (List ℚ)).map (fun r => r.map some))
        [0, 1] 2).viterbi
      (([[0, -100], [0, -100], [-100, 0]] : List (List ℚ)).map (fun r => r.map some))
    = .ok [0, 0, 1] :=
  ((viterbi_matches_maxsum 1 [0, -100] [[0, 0], [0, 0]] [0, 1]
      [[0, -100], [0, -100], [-100, 0]] 2
      (by decide) (by decide) (by decide) (by decide) (by decide) (by decide)
      (by decide)).1).trans (by with_unfolding_all decide)

end HMMV
